import Mathlib

/-!
Verification of the netcalc binary-trie set algebra and its script shell.

The Rust sources are embedded shallowly: `Bits` (called `Prefix` in `alg.rs`)
becomes `List Bit`, the trie `Tree` becomes an inductive type, fallible Rust
functions return `Except Err`, and Rust panics are modelled as a distinguished
error value.  Strings are modelled as `List Char`.
-/

set_option linter.unusedVariables false
set_option linter.unnecessarySeqFocus false

/-- Equality on `Except` values is decidable when it is on both components;
used to evaluate the embedded fallible functions at concrete inputs. -/
instance {ε α : Type} [DecidableEq ε] [DecidableEq α] : DecidableEq (Except ε α) := fun x y =>
  match x, y with
  | Except.ok a, Except.ok b =>
    if h : a = b then Decidable.isTrue (by rw [h])
    else Decidable.isFalse (by intro hc; cases hc; exact h rfl)
  | Except.error a, Except.error b =>
    if h : a = b then Decidable.isTrue (by rw [h])
    else Decidable.isFalse (by intro hc; cases hc; exact h rfl)
  | Except.ok _, Except.error _ => Decidable.isFalse (by intro hc; cases hc)
  | Except.error _, Except.ok _ => Decidable.isFalse (by intro hc; cases hc)

namespace Netcalc

/-- A single bit, the source enum `Bit` with variants `B0`, `B1`. -/
inductive Bit
  | B0
  | B1
deriving DecidableEq

open Bit

/-- `Bits` models the source `Bits(Vec<Bit>)` (named `Prefix` in `alg.rs`). -/
abbrev Bits := List Bit

/-- The source `PartialOrd for Bits` instance: walk both sequences with
`zip_longest`; equal bits are skipped, the first differing pair decides, and
if one sequence ends first the values are incomparable (`None`). -/
def pcmp : Bits → Bits → Option Ordering
  | [], [] => some Ordering.eq
  | [], _ :: _ => none
  | _ :: _, [] => none
  | B0 :: _, B1 :: _ => some Ordering.lt
  | B1 :: _, B0 :: _ => some Ordering.gt
  | _ :: as, _ :: bs => pcmp as bs

/-- Rust `a < b` via the derived `PartialOrd::lt`. -/
def bitsLt (a b : Bits) : Bool := pcmp a b == some Ordering.lt

/-- Rust `a > b` via the derived `PartialOrd::gt`. -/
def bitsGt (a b : Bits) : Bool := pcmp a b == some Ordering.gt

/-- Rust `a <= b`: the comparison is `Some(Less)` or `Some(Equal)`. -/
def bitsLe (a b : Bits) : Bool :=
  match pcmp a b with
  | some Ordering.lt => true
  | some Ordering.eq => true
  | _ => false

def bitVal : Bit → Nat
  | B0 => 0
  | B1 => 1

/-- MSB-first unsigned value of a bit string: the fold `(s << 1) | b` used by
the source `to_u32`/`to_u64`; this is the "read as W-bit unsigned integer"
interpretation of the spec. -/
def bitsVal (b : Bits) : Nat := b.foldl (fun s x => 2 * s + bitVal x) 0

/-- Bit `i` (counting from the least significant position) of a byte value,
as produced by the `reverse_bits` loop of the source `from_u8`. -/
def u8Bit (n i : Nat) : Bit := if n / 2 ^ i % 2 = 1 then B1 else B0

/-- `Bits::from_u8`: the eight bits of a byte, most significant first.  The
Rust loop reads `n.reverse_bits()` from its least significant end, which
emits bit 7 of `n` first, then bit 6, and so on down to bit 0. -/
def fromU8 (n : Nat) : Bits :=
  [u8Bit n 7, u8Bit n 6, u8Bit n 5, u8Bit n 4, u8Bit n 3, u8Bit n 2, u8Bit n 1, u8Bit n 0]

/-- `Bits::right_pad` (`Vec::resize`): grow to `n` entries by appending
`bit`, or shrink to `n` entries when already longer. -/
def rightPad (b : Bits) (n : Nat) (bit : Bit) : Bits :=
  if b.length ≤ n then b ++ List.replicate (n - b.length) bit else b.take n

/-- `x` lies in the prefix set denoted by `p`: `p` is a leading sequence of
`x`.  This is the denotation of a BitString as a set of addresses. -/
def isPre : Bits → Bits → Bool
  | [], _ => true
  | _ :: _, [] => false
  | a :: as, b :: bs => a == b && isPre as bs

/-- The error surface of the embedded code.  The Rust code uses string-typed
`failure::Error` values; the claims only need to distinguish the inverted
range error, ordinary parse failures, the unrecognized-line error, and
panics (which in Rust abort instead of returning `Err`). -/
inductive Err
  | rangeInverted
  | malformed
  | unrecognizedLine
  | panicked
deriving DecidableEq

/-- The trie: source enum `Tree` with `Sat` (full), `Unsat` (empty) and
`Mixed` (branch on the next bit, 0-side first). -/
inductive Tree
  | Sat
  | Unsat
  | Mixed (l r : Tree)
deriving DecidableEq

open Tree

/-- `Tree::mixed` in `alg.rs`: build a branch without normalizing. -/
def Tree.mixed (l r : Tree) : Tree := Mixed l r

/-- `Tree::flip` (the complement). -/
def Tree.flip : Tree → Tree
  | Sat => Unsat
  | Unsat => Sat
  | Mixed l r => Mixed l.flip r.flip

/-- `Tree::optimize` (normalization): bottom-up collapse of `Mixed(Sat,Sat)`
to `Sat` and `Mixed(Unsat,Unsat)` to `Unsat`. -/
def Tree.optimize : Tree → Tree
  | Sat => Sat
  | Unsat => Unsat
  | Mixed l r =>
    match l.optimize, r.optimize with
    | Sat, Sat => Sat
    | Unsat, Unsat => Unsat
    | ol, or => Mixed ol or

/-- `Tree::add`: insert the prefix set of `cidr`.  An empty prefix yields
`Sat` at once; otherwise the head bit is split off and the matching side is
extended.  Note the result is not re-normalized. -/
def Tree.add : Tree → Bits → Tree
  | _, [] => Sat
  | Sat, _ :: _ => Sat
  | Unsat, B0 :: t => Mixed (Tree.add Unsat t) Unsat
  | Unsat, B1 :: t => Mixed Unsat (Tree.add Unsat t)
  | Mixed l r, B0 :: t => Mixed (Tree.add l t) r
  | Mixed l r, B1 :: t => Mixed l (Tree.add r t)

/-- `Tree::del` (`del_cidr` in `mod.rs`): complement, add, complement. -/
def Tree.del (t : Tree) (p : Bits) : Tree := ((t.flip).add p).flip

/-- `Tree::union` from `alg.rs`: identities for `Sat`/`Unsat`, and a
re-normalized branchwise union of two `Mixed` nodes. -/
def Tree.union : Tree → Tree → Tree
  | _, Sat => Sat
  | a, Unsat => a
  | Sat, _ => Sat
  | Unsat, b => b
  | Mixed l1 r1, Mixed l2 r2 => (Tree.mixed (l1.union l2) (r1.union r2)).optimize

/-- `Tree::union` from `mod.rs` (lines 215-230): the variant actually wired
into the crate.  It never calls `optimize`, and it expands a `Mixed` against
`Unsat` by recursing into both children instead of returning the operand. -/
def Tree.unionM : Tree → Tree → Tree
  | Sat, _ => Sat
  | _, Sat => Sat
  | Unsat, Unsat => Unsat
  | Unsat, Mixed l r => Mixed (Tree.unionM Unsat l) (Tree.unionM Unsat r)
  | Mixed l r, Unsat => Mixed (Tree.unionM l Unsat) (Tree.unionM r Unsat)
  | Mixed l1 r1, Mixed l2 r2 => Mixed (Tree.unionM l1 l2) (Tree.unionM r1 r2)

/-- `Tree::difference` from `alg.rs`. -/
def Tree.difference : Tree → Tree → Tree
  | _, Sat => Unsat
  | a, Unsat => a
  | Sat, b => b.flip
  | Unsat, _ => Unsat
  | Mixed a0 a1, Mixed b0 b1 =>
    (Tree.mixed (a0.difference b0) (a1.difference b1)).optimize

/-- `Tree::from_range_at` from `alg.rs`: grow a current prefix from the
empty string; prune when `curr` is entirely below `start` or above `end`,
emit `Sat` when `curr` is inside the range, and otherwise branch on the next
bit and normalize.  The Rust recursion has no structural measure, so the
embedding adds explicit `fuel`; `from_range` supplies `start.length + 1`,
which the development shows is never exhausted on equal-length bounds. -/
def Tree.fromRangeAt (fuel : Nat) (curr a b : Bits) : Tree :=
  match fuel with
  | 0 => Unsat
  | fuel' + 1 =>
    if bitsLt curr a || bitsGt curr b then Unsat
    else if bitsLe a curr && bitsLe curr b then Sat
    else
      (Tree.mixed (Tree.fromRangeAt fuel' (curr ++ [B0]) a b)
                  (Tree.fromRangeAt fuel' (curr ++ [B1]) a b)).optimize

/-- `Tree::from_range` from `alg.rs`: `ensure!(start <= end)` and descend
from the empty prefix. -/
def Tree.from_range (a b : Bits) : Except Err Tree :=
  if bitsLe a b then Except.ok (Tree.fromRangeAt (a.length + 1) [] a b)
  else Except.error Err.rangeInverted

/-- `Tree::from_range_at` from `mod.rs` (lines 192-205): same pruning, but
only the two children are optimized — the `Mixed` node built from them is
not, so a `Mixed(Sat, Sat)` can survive at any level.  Fuel as above. -/
def Tree.fromRangeAtM (fuel : Nat) (curr a b : Bits) : Tree :=
  match fuel with
  | 0 => Unsat
  | fuel' + 1 =>
    if bitsLt curr a || bitsGt curr b then Unsat
    else if bitsLe a curr && bitsLe curr b then Sat
    else
      Mixed (Tree.fromRangeAtM fuel' (curr ++ [B0]) a b).optimize
            (Tree.fromRangeAtM fuel' (curr ++ [B1]) a b).optimize

/-- `Tree::from_range` from `mod.rs` (lines 188-190): no bounds check at
all; descend from the empty prefix. -/
def Tree.from_rangeM (a b : Bits) : Tree :=
  Tree.fromRangeAtM (a.length + 1) [] a b

/-- `Tree::prefixes_from`: depth-first enumeration, 0-side before 1-side;
a `Sat` node emits the accumulated prefix, `Unsat` emits nothing. -/
def Tree.prefixes_from : Tree → Bits → List Bits
  | Sat, q => [q]
  | Unsat, _ => []
  | Mixed l r, q => Tree.prefixes_from l (q ++ [B0]) ++ Tree.prefixes_from r (q ++ [B1])

/-- `Tree::prefixes`: normalize a copy of the tree, then enumerate from the
empty prefix. -/
def Tree.prefixes (t : Tree) : List Bits := Tree.prefixes_from t.optimize []

/-- Number of branch levels of a tree (the data model bounds it by W). -/
def Tree.depth : Tree → Nat
  | Sat => 0
  | Unsat => 0
  | Mixed l r => 1 + max l.depth r.depth

/-- Membership of a bit string in the set represented by a tree: descend on
successive bits.  Only meaningful when the string is at least as long as the
tree is deep. -/
def Tree.mem : Tree → Bits → Bool
  | Sat, _ => true
  | Unsat, _ => false
  | Mixed _ _, [] => false
  | Mixed l _, B0 :: x => l.mem x
  | Mixed _ r, B1 :: x => r.mem x

/-- A pair of children that `optimize` would collapse. -/
def badPair : Tree → Tree → Bool
  | Sat, Sat => true
  | Unsat, Unsat => true
  | _, _ => false

/-- Canonical form: no `Mixed(Sat,Sat)` and no `Mixed(Unsat,Unsat)` subterm. -/
def canonical : Tree → Bool
  | Sat => true
  | Unsat => true
  | Mixed l r => !badPair l r && canonical l && canonical r

/-- Models where `Tree::add` would panic: the `split().unwrap()` fires
exactly when the prefix is empty at a recursive call that passed the
non-emptiness test — the recursion mirrors `add`'s. -/
def addPanics (t : Tree) (cidr : Bits) : Bool :=
  match cidr with
  | [] => false
  | h :: tl =>
    match t, h with
    | Sat, _ => false
    | Unsat, _ => addPanics Unsat tl
    | Mixed l _, B0 => addPanics l tl
    | Mixed _ r, B1 => addPanics r tl

/-! ### The script / formatting shell from `mod.rs` -/

/-- Decimal rendering of a number, as Rust `format!("{}", n)`. -/
def natChars (n : Nat) : List Char := Nat.toDigits 10 n

/-- `Bits::to_u32`: MSB-first fold, defined only on strings of length 32. -/
def toU32 (b : Bits) : Except Err Nat :=
  if b.length = 32 then Except.ok (bitsVal b) else Except.error Err.malformed

/-- `Bits::to_v4_addr`: dotted-quad rendering of a 32-bit string. -/
def toV4Addr (b : Bits) : Except Err (List Char) :=
  if b.length = 32 then do
    let i ← toU32 b
    Except.ok (natChars (i / 2 ^ 24 % 256) ++ '.' :: natChars (i / 2 ^ 16 % 256)
      ++ '.' :: natChars (i / 2 ^ 8 % 256) ++ '.' :: natChars (i % 256))
  else Except.error Err.malformed

/-- `Bits::to_v4_cidr`: right-pad with zero bits to width 32, render the
address, and append the original length. -/
def toV4Cidr (b : Bits) : Except Err (List Char) :=
  if b.length ≤ 32 then do
    let a ← toV4Addr (rightPad b 32 B0)
    Except.ok (a ++ '/' :: natChars b.length)
  else Except.error Err.malformed

/-- Rust `str::split(c)`: always yields at least one (possibly empty)
segment; an empty input yields one empty segment. -/
def splitOnChar (c : Char) : List Char → List (List Char)
  | [] => [[]]
  | x :: rest =>
    if x = c then [] :: splitOnChar c rest
    else
      match splitOnChar c rest with
      | [] => [[x]]
      | seg :: segs => (x :: seg) :: segs

/-- Strip one trailing carriage return, as `str::lines` does per line. -/
def stripCR (l : List Char) : List Char :=
  if l.getLast? = some '\r' then l.dropLast else l

/-- Rust `str::lines`: split on `'\n'` with terminator semantics (no empty
final line after a trailing newline), stripping a trailing `'\r'`. -/
def rustLines (s : List Char) : List (List Char) :=
  let parts := splitOnChar '\n' s
  let parts := if parts.getLast? = some [] then parts.dropLast else parts
  parts.map stripCR

/-- Rust `str::trim`: drop whitespace from both ends. -/
def trimChars (l : List Char) : List Char :=
  ((l.dropWhile Char.isWhitespace).reverse.dropWhile Char.isWhitespace).reverse

def digitVal (c : Char) : Nat := c.toNat - '0'.toNat

/-- Digit loop of Rust `u8::from_str`: every character must be a decimal
digit and the accumulated value must stay within `u8` range. -/
def parseDigits (acc : Nat) : List Char → Except Err Nat
  | [] => Except.ok acc
  | c :: rest =>
    if c.isDigit then
      if 10 * acc + digitVal c ≤ 255 then parseDigits (10 * acc + digitVal c) rest
      else Except.error Err.malformed
    else Except.error Err.malformed

/-- Rust `u8::from_str`: an optional leading `+`, then one or more decimal
digits, rejecting values above 255.  (A `-` sign is not consumed for an
unsigned type, so it fails as a non-digit.) -/
def parseU8 (s : List Char) : Except Err Nat :=
  match s with
  | [] => Except.error Err.malformed
  | '+' :: rest => if rest = [] then Except.error Err.malformed else parseDigits 0 rest
  | _ => parseDigits 0 s

/-- Segment loop of `Bits::parse_v4_addr`: parse each dot-separated segment
as a byte and concatenate the bit strings. -/
def parseSegs : List (List Char) → Except Err Bits
  | [] => Except.ok []
  | seg :: rest => do
    let b ← parseU8 seg
    let bs ← parseSegs rest
    Except.ok (fromU8 b ++ bs)

/-- `Bits::parse_v4_addr`: dot-separated byte segments, total width must be
exactly 32 bits. -/
def parse_v4_addr (s : List Char) : Except Err Bits := do
  let bits ← parseSegs (splitOnChar '.' s)
  if bits.length = 32 then Except.ok bits else Except.error Err.malformed

/-- `Bits::parse_v4_cidr`: exactly one `/`, address on the left, a length of
at most 32 on the right; the address is truncated to the stated length. -/
def parse_v4_cidr (s : List Char) : Except Err Bits :=
  match splitOnChar '/' s with
  | [l, r] => do
    let addr ← parse_v4_addr l
    let len ← parseU8 r
    if len ≤ 32 then Except.ok (addr.take len) else Except.error Err.malformed
  | _ => Except.error Err.malformed

/-- `Bits::parse_v4`: try the CIDR form first, fall back to a bare address.
No range form is attempted (`BitsOrTree::parse` is `todo!()` and unused). -/
def parse_v4 (s : List Char) : Except Err Bits :=
  match parse_v4_cidr s with
  | Except.ok b => Except.ok b
  | Except.error _ => parse_v4_addr s

inductive Instruction
  | Add (p : Bits)
  | Del (p : Bits)
deriving DecidableEq

/-- One iteration of `Instruction::parse_lines`.  The Rust code evaluates
`&line[..1]` on the trimmed line before matching, which panics (byte index
out of bounds) on an empty line — its `"" => ()` match arm is unreachable. -/
def parseLine (line : List Char) : Except Err (Option Instruction) :=
  match trimChars line with
  | [] => Except.error Err.panicked
  | c :: rest =>
    if c = '#' then Except.ok none
    else if c = '+' then (parse_v4 rest).map (fun b => some (Instruction.Add b))
    else if c = '-' then (parse_v4 rest).map (fun b => some (Instruction.Del b))
    else Except.error Err.unrecognizedLine

def parseLinesGo : List (List Char) → Except Err (List Instruction)
  | [] => Except.ok []
  | l :: rest => do
    let i ← parseLine l
    let is ← parseLinesGo rest
    Except.ok (match i with | some x => x :: is | none => is)

/-- `Instruction::parse_lines` over the whole script. -/
def parseLines (s : List Char) : Except Err (List Instruction) :=
  parseLinesGo (rustLines s)

/-- `exec_instructions`: fold the operations over a fresh empty tree. -/
def execInstructions (l : List Instruction) : Tree :=
  l.foldl
    (fun t i =>
      match i with
      | Instruction.Add p => t.add p
      | Instruction.Del p => t.del p)
    Tree.Unsat

def mapToV4Cidr : List Bits → Except Err (List (List Char))
  | [] => Except.ok []
  | b :: rest => do
    let c ← toV4Cidr b
    let cs ← mapToV4Cidr rest
    Except.ok (c :: cs)

/-- Rust `[String]::join`. -/
def joinSep (sep : List Char) : List (List Char) → List Char
  | [] => []
  | [x] => x
  | x :: rest => x ++ sep ++ joinSep sep rest

/-- `netcalc::convert` from `mod.rs`.  Note the signature: a separator and a
script only — there is no version parameter, and formatting is always IPv4. -/
def convert (sep s : List Char) : Except Err (List Char) := do
  let instructions ← parseLines s
  let t := execInstructions instructions
  let cidrs ← mapToV4Cidr t.prefixes
  Except.ok (joinSep sep cidrs)

/-! ### Operation sequences (for the canonical-form claim) -/

/-- An abstract step of the set algebra, as listed by the spec: add or
delete a prefix, union a tree (both the `alg.rs` and the `mod.rs` variant)
or subtract a tree (the tree operand may come from either `from_range`), or
complement. -/
inductive Op
  | addP (p : Bits)
  | delP (p : Bits)
  | unionT (u : Tree)
  | unionM (u : Tree)
  | diffT (u : Tree)
  | compl

def applyOp (t : Tree) : Op → Tree
  | Op.addP p => t.add p
  | Op.delP p => t.del p
  | Op.unionT u => t.union u
  | Op.unionM u => t.unionM u
  | Op.diffT u => t.difference u
  | Op.compl => t.flip

/-- Run a sequence of operations starting from the empty tree. -/
def execOps (ops : List Op) : Tree := ops.foldl applyOp Tree.Unsat

/-- The prefix bits of a parsed CIDR together with the address bits beyond
the stated length zeroed out — "the input normalized" of the spec. -/
def zeroBeyond (a : Bits) (len : Nat) : Bits :=
  a.take len ++ List.replicate (a.length - len) B0

/-- The CIDR string denoting the normalized input: the dotted-quad of the
zeroed address with the original prefix length appended. -/
def normCidr (a : Bits) (len : Nat) : Except Err (List Char) := do
  let addr ← toV4Addr (zeroBeyond a len)
  Except.ok (addr ++ '/' :: natChars len)

end Netcalc

/-! ### Order lemmas for `pcmp` -/

namespace Netcalc

open Bit Tree

def ordSwap : Ordering → Ordering
  | Ordering.lt => Ordering.gt
  | Ordering.eq => Ordering.eq
  | Ordering.gt => Ordering.lt

theorem pcmp_eq_iff : ∀ a b : Bits, pcmp a b = some Ordering.eq ↔ a = b := by
  intro a
  induction a with
  | nil => intro b; cases b <;> simp [pcmp]
  | cons x as ih =>
    intro b
    cases b with
    | nil => simp [pcmp]
    | cons y bs => cases x <;> cases y <;> simp [pcmp, ih]

theorem pcmp_refl (a : Bits) : pcmp a a = some Ordering.eq := (pcmp_eq_iff a a).mpr rfl

theorem pcmp_swap : ∀ a b : Bits, pcmp b a = (pcmp a b).map ordSwap := by
  intro a
  induction a with
  | nil => intro b; cases b <;> simp [pcmp, ordSwap]
  | cons x as ih =>
    intro b
    cases b with
    | nil => simp [pcmp]
    | cons y bs => cases x <;> cases y <;> simp [pcmp, ordSwap, ih]

theorem pcmp_isSome_of_len : ∀ a b : Bits, a.length = b.length → (pcmp a b).isSome := by
  intro a
  induction a with
  | nil => intro b h; cases b <;> simp_all [pcmp]
  | cons x as ih =>
    intro b h
    cases b with
    | nil => simp at h
    | cons y bs =>
      have hl : as.length = bs.length := by simpa using h
      cases x <;> cases y <;> simp [pcmp, ih bs hl]

theorem pcmp_append_lt :
    ∀ a b : Bits, pcmp a b = some Ordering.lt →
      ∀ x y : Bits, pcmp (a ++ x) (b ++ y) = some Ordering.lt := by
  intro a
  induction a with
  | nil => intro b h; cases b <;> simp [pcmp] at h
  | cons xa as ih =>
    intro b h x y
    cases b with
    | nil => simp [pcmp] at h
    | cons yb bs =>
      cases xa <;> cases yb <;> simp [pcmp] at h ⊢ <;> exact ih bs h x y

theorem pcmp_cancel : ∀ c x y : Bits, pcmp (c ++ x) (c ++ y) = pcmp x y := by
  intro c
  induction c with
  | nil => intro x y; rfl
  | cons h t ih => intro x y; cases h <;> simpa [pcmp] using ih x y

/-! ### Value lemmas for `bitsVal` -/

theorem bitsVal_foldl :
    ∀ (l : Bits) (s : Nat),
      List.foldl (fun s x => 2 * s + bitVal x) s l
        = s * 2 ^ l.length + List.foldl (fun s x => 2 * s + bitVal x) 0 l := by
  intro l
  induction l with
  | nil => intro s; simp
  | cons h t ih =>
    intro s
    simp only [List.foldl, List.length_cons]
    rw [ih (2 * s + bitVal h), ih (2 * 0 + bitVal h)]
    ring

theorem bitsVal_cons (h : Bit) (t : Bits) :
    bitsVal (h :: t) = bitVal h * 2 ^ t.length + bitsVal t := by
  show List.foldl _ _ _ = _
  simp only [List.foldl]
  rw [bitsVal_foldl]
  show (2 * 0 + bitVal h) * 2 ^ t.length + bitsVal t = _
  ring

theorem bitsVal_lt (b : Bits) : bitsVal b < 2 ^ b.length := by
  induction b with
  | nil => simp [bitsVal]
  | cons h t ih =>
    rw [bitsVal_cons]
    cases h <;> simp [bitVal, List.length_cons, pow_succ] <;> omega

theorem pcmp_lt_iff_val :
    ∀ a b : Bits, a.length = b.length →
      (pcmp a b = some Ordering.lt ↔ bitsVal a < bitsVal b) := by
  intro a
  induction a with
  | nil =>
    intro b h
    cases b with
    | nil => simp [pcmp]
    | cons y bs => simp at h
  | cons x as ih =>
    intro b h
    cases b with
    | nil => simp at h
    | cons y bs =>
      have hl : as.length = bs.length := by simpa using h
      have hlt_as := bitsVal_lt as
      have hlt_bs := bitsVal_lt bs
      have h2 : (2 : Nat) ^ as.length = 2 ^ bs.length := by rw [hl]
      cases x <;> cases y <;>
        simp [pcmp, bitsVal_cons, bitVal, ih bs hl] <;> omega

theorem pcmp_gt_swap {a b : Bits} (h : pcmp a b = some Ordering.gt) :
    pcmp b a = some Ordering.lt := by
  rw [pcmp_swap a b, h]; rfl

theorem pcmp_lt_swap {a b : Bits} (h : pcmp a b = some Ordering.lt) :
    pcmp b a = some Ordering.gt := by
  rw [pcmp_swap a b, h]; rfl

theorem bitsVal_inj :
    ∀ a b : Bits, a.length = b.length → bitsVal a = bitsVal b → a = b := by
  intro a b h hv
  have hs := pcmp_isSome_of_len a b h
  match ho : pcmp a b with
  | some Ordering.lt =>
    have := (pcmp_lt_iff_val a b h).mp ho
    omega
  | some Ordering.eq => exact (pcmp_eq_iff a b).mp ho
  | some Ordering.gt =>
    have := (pcmp_lt_iff_val b a h.symm).mp (pcmp_gt_swap ho)
    omega
  | none => simp [ho] at hs

theorem bitsLe_iff_val :
    ∀ a b : Bits, a.length = b.length →
      (bitsLe a b = true ↔ bitsVal a ≤ bitsVal b) := by
  intro a b h
  have hs := pcmp_isSome_of_len a b h
  unfold bitsLe
  match ho : pcmp a b with
  | some Ordering.lt =>
    have := (pcmp_lt_iff_val a b h).mp ho
    simp [this.le]
  | some Ordering.eq =>
    have := (pcmp_eq_iff a b).mp ho
    subst this
    simp
  | some Ordering.gt =>
    have := (pcmp_lt_iff_val b a h.symm).mp (pcmp_gt_swap ho)
    simp
    omega
  | none => simp [ho] at hs

end Netcalc

/-! ### Tree lemmas: optimize, canonical form, enumeration -/

namespace Netcalc

open Bit Tree

theorem depth_optimize : ∀ t : Tree, t.optimize.depth ≤ t.depth := by
  intro t
  induction t with
  | Sat => simp [Tree.optimize]
  | Unsat => simp [Tree.optimize]
  | Mixed l r ihl ihr =>
    simp only [Tree.optimize]
    rcases hl : l.optimize with _ | _ | ⟨a, b⟩ <;>
      rcases hr : r.optimize with _ | _ | ⟨c, d⟩ <;>
        (rw [hl] at ihl; rw [hr] at ihr) <;> simp_all [Tree.depth] <;> omega

theorem mem_optimize :
    ∀ (t : Tree) (x : Bits), t.depth ≤ x.length → t.optimize.mem x = t.mem x := by
  intro t
  induction t with
  | Sat => intro x _; rfl
  | Unsat => intro x _; rfl
  | Mixed l r ihl ihr =>
    intro x h
    cases x with
    | nil =>
      exfalso
      simp only [Tree.depth, List.length_nil] at h
      omega
    | cons hd x' =>
      have hld : l.depth ≤ x'.length := by
        simp only [Tree.depth, List.length_cons] at h; omega
      have hrd : r.depth ≤ x'.length := by
        simp only [Tree.depth, List.length_cons] at h; omega
      have hml := ihl x' hld
      have hmr := ihr x' hrd
      simp only [Tree.optimize]
      rcases hl : l.optimize with _ | _ | ⟨a, b⟩ <;>
        rcases hr : r.optimize with _ | _ | ⟨c, d⟩ <;>
          rw [hl] at hml <;> rw [hr] at hmr <;>
            cases hd <;> simp_all [Tree.mem]

theorem canonical_optimize : ∀ t : Tree, canonical t.optimize = true := by
  intro t
  induction t with
  | Sat => rfl
  | Unsat => rfl
  | Mixed l r ihl ihr =>
    simp only [Tree.optimize]
    rcases hl : l.optimize with _ | _ | ⟨a, b⟩ <;>
      rcases hr : r.optimize with _ | _ | ⟨c, d⟩ <;>
        rw [hl] at ihl <;> rw [hr] at ihr <;> simp_all [canonical, badPair]

theorem optimize_of_canonical : ∀ t : Tree, canonical t = true → t.optimize = t := by
  intro t
  induction t with
  | Sat => intro _; rfl
  | Unsat => intro _; rfl
  | Mixed l r ihl ihr =>
    intro hc
    simp only [canonical, Bool.and_eq_true, Bool.not_eq_true'] at hc
    obtain ⟨⟨hbp, hcl⟩, hcr⟩ := hc
    have el : l.optimize = l := ihl hcl
    have er : r.optimize = r := ihr hcr
    simp only [Tree.optimize, el, er]
    cases l <;> cases r <;> simp_all [badPair]

theorem optimize_idem (t : Tree) : t.optimize.optimize = t.optimize :=
  optimize_of_canonical _ (canonical_optimize t)

theorem prefixes_from_eq_map :
    ∀ (t : Tree) (q : Bits),
      t.prefixes_from q = (t.prefixes_from []).map (fun p => q ++ p) := by
  intro t
  induction t with
  | Sat => intro q; simp [Tree.prefixes_from]
  | Unsat => intro q; simp [Tree.prefixes_from]
  | Mixed l r ihl ihr =>
    intro q
    simp only [Tree.prefixes_from, List.nil_append, List.map_append]
    rw [ihl (q ++ [B0]), ihr (q ++ [B1]), ihl [B0], ihr [B1]]
    simp [List.map_map, Function.comp_def, List.append_assoc]

theorem prefixes_from_length :
    ∀ (t : Tree) (p : Bits), p ∈ t.prefixes_from [] → p.length ≤ t.depth := by
  intro t
  induction t with
  | Sat =>
    intro p hp
    simp only [Tree.prefixes_from, List.mem_singleton] at hp
    simp [hp, Tree.depth]
  | Unsat => intro p hp; simp [Tree.prefixes_from] at hp
  | Mixed l r ihl ihr =>
    intro p hp
    simp only [Tree.prefixes_from, List.nil_append, List.mem_append] at hp
    rcases hp with hp | hp
    · rw [prefixes_from_eq_map] at hp
      simp only [List.mem_map] at hp
      obtain ⟨p', hp', rfl⟩ := hp
      have := ihl p' hp'
      simp only [Tree.depth, List.length_append, List.length_cons, List.length_nil]
      omega
    · rw [prefixes_from_eq_map] at hp
      simp only [List.mem_map] at hp
      obtain ⟨p', hp', rfl⟩ := hp
      have := ihr p' hp'
      simp only [Tree.depth, List.length_append, List.length_cons, List.length_nil]
      omega

theorem isPre_cons {c : Bit} {p x : Bits} :
    isPre (c :: p) x = true ↔ ∃ x', x = c :: x' ∧ isPre p x' = true := by
  cases x with
  | nil => simp [isPre]
  | cons d x' => cases c <;> cases d <;> simp [isPre]

theorem mem_iff_cover :
    ∀ (t : Tree) (x : Bits), t.depth ≤ x.length →
      ((∃ p ∈ t.prefixes_from [], isPre p x = true) ↔ t.mem x = true) := by
  intro t
  induction t with
  | Sat => intro x _; simp [Tree.prefixes_from, Tree.mem, isPre]
  | Unsat => intro x _; simp [Tree.prefixes_from, Tree.mem]
  | Mixed l r ihl ihr =>
    intro x h
    cases x with
    | nil =>
      exfalso
      simp only [Tree.depth, List.length_nil] at h
      omega
    | cons hd x' =>
      have hld : l.depth ≤ x'.length := by
        simp only [Tree.depth, List.length_cons] at h; omega
      have hrd : r.depth ≤ x'.length := by
        simp only [Tree.depth, List.length_cons] at h; omega
      simp only [Tree.prefixes_from, List.nil_append, List.mem_append]
      rw [prefixes_from_eq_map l, prefixes_from_eq_map r]
      constructor
      · rintro ⟨p, hp | hp, hpre⟩
        · simp only [List.mem_map] at hp
          obtain ⟨p', hp', rfl⟩ := hp
          rw [show ([B0] ++ p' : Bits) = B0 :: p' from rfl, isPre_cons] at hpre
          obtain ⟨x'', hx, hpre'⟩ := hpre
          cases hx
          simpa [Tree.mem] using (ihl x' hld).mp ⟨p', hp', hpre'⟩
        · simp only [List.mem_map] at hp
          obtain ⟨p', hp', rfl⟩ := hp
          rw [show ([B1] ++ p' : Bits) = B1 :: p' from rfl, isPre_cons] at hpre
          obtain ⟨x'', hx, hpre'⟩ := hpre
          cases hx
          simpa [Tree.mem] using (ihr x' hrd).mp ⟨p', hp', hpre'⟩
      · intro hm
        cases hd with
        | B0 =>
          simp only [Tree.mem] at hm
          obtain ⟨p, hp, hpre⟩ := (ihl x' hld).mpr hm
          refine ⟨B0 :: p, Or.inl ?_, ?_⟩
          · simp only [List.mem_map]
            exact ⟨p, hp, rfl⟩
          · rw [isPre_cons]; exact ⟨x', rfl, hpre⟩
        | B1 =>
          simp only [Tree.mem] at hm
          obtain ⟨p, hp, hpre⟩ := (ihr x' hrd).mpr hm
          refine ⟨B1 :: p, Or.inr ?_, ?_⟩
          · simp only [List.mem_map]
            exact ⟨p, hp, rfl⟩
          · rw [isPre_cons]; exact ⟨x', rfl, hpre⟩

end Netcalc

/-! ### Enumeration order and sibling-freedom -/

namespace Netcalc

open Bit Tree

theorem bitsVal_cons_B0 (x : Bits) : bitsVal (B0 :: x) = bitsVal x := by
  rw [bitsVal_cons]; simp [bitVal]

theorem bitsVal_cons_B1 (x : Bits) : bitsVal (B1 :: x) = 2 ^ x.length + bitsVal x := by
  rw [bitsVal_cons]; simp [bitVal]

theorem nil_mem_prefixes_from : ∀ t : Tree, (([] : Bits) ∈ t.prefixes_from []) ↔ t = Sat := by
  intro t
  cases t with
  | Sat => simp [Tree.prefixes_from]
  | Unsat => simp [Tree.prefixes_from]
  | Mixed l r =>
    simp only [Tree.prefixes_from, List.nil_append, List.mem_append]
    rw [prefixes_from_eq_map l, prefixes_from_eq_map r]
    simp [List.mem_map]

theorem no_sibling_of_canonical :
    ∀ t : Tree, canonical t = true →
      ∀ s : Bits, ¬((s ++ [B0]) ∈ t.prefixes_from [] ∧ (s ++ [B1]) ∈ t.prefixes_from []) := by
  intro t
  induction t with
  | Sat =>
    intro _ s h
    obtain ⟨h0, _⟩ := h
    simp only [Tree.prefixes_from, List.mem_singleton] at h0
    exact absurd h0 (by simp)
  | Unsat =>
    intro _ s h
    obtain ⟨h0, _⟩ := h
    simp [Tree.prefixes_from] at h0
  | Mixed l r ihl ihr =>
    intro hc s h
    simp only [canonical, Bool.and_eq_true, Bool.not_eq_true'] at hc
    obtain ⟨⟨hbp, hcl⟩, hcr⟩ := hc
    obtain ⟨h0, h1⟩ := h
    simp only [Tree.prefixes_from, List.nil_append, List.mem_append] at h0 h1
    rw [prefixes_from_eq_map l, prefixes_from_eq_map r] at h0 h1
    simp only [List.mem_map] at h0 h1
    cases s with
    | nil =>
      have hlSat : l = Sat := by
        rcases h0 with ⟨p, hp, he⟩ | ⟨p, hp, he⟩
        · have : p = ([] : Bits) := by
            cases p with
            | nil => rfl
            | cons c cs => simp at he
          subst this
          exact (nil_mem_prefixes_from l).mp hp
        · exfalso
          cases p <;> simp at he
      have hrSat : r = Sat := by
        rcases h1 with ⟨p, hp, he⟩ | ⟨p, hp, he⟩
        · exfalso
          cases p <;> simp at he
        · have : p = ([] : Bits) := by
            cases p with
            | nil => rfl
            | cons c cs => simp at he
          subst this
          exact (nil_mem_prefixes_from r).mp hp
      subst hlSat; subst hrSat
      simp [badPair] at hbp
    | cons c s' =>
      cases c with
      | B0 =>
        have h0' : (s' ++ [B0]) ∈ l.prefixes_from [] := by
          rcases h0 with ⟨p, hp, he⟩ | ⟨p, hp, he⟩
          · have : p = s' ++ [B0] := by simpa using he
            rwa [this] at hp
          · exfalso; cases p <;> simp at he
        have h1' : (s' ++ [B1]) ∈ l.prefixes_from [] := by
          rcases h1 with ⟨p, hp, he⟩ | ⟨p, hp, he⟩
          · have : p = s' ++ [B1] := by simpa using he
            rwa [this] at hp
          · exfalso; cases p <;> simp at he
        exact ihl hcl s' ⟨h0', h1'⟩
      | B1 =>
        have h0' : (s' ++ [B0]) ∈ r.prefixes_from [] := by
          rcases h0 with ⟨p, hp, he⟩ | ⟨p, hp, he⟩
          · exfalso; cases p <;> simp at he
          · have : p = s' ++ [B0] := by simpa using he
            rwa [this] at hp
        have h1' : (s' ++ [B1]) ∈ r.prefixes_from [] := by
          rcases h1 with ⟨p, hp, he⟩ | ⟨p, hp, he⟩
          · exfalso; cases p <;> simp at he
          · have : p = s' ++ [B1] := by simpa using he
            rwa [this] at hp
        exact ihr hcr s' ⟨h0', h1'⟩

/-- The semantic enumeration order: every full-length address covered by an
earlier emitted prefix is numerically below every address covered by a
later one. -/
def emitBefore (n : Nat) (p q : Bits) : Prop :=
  ∀ x y : Bits, x.length = n → y.length = n →
    isPre p x = true → isPre q y = true → bitsVal x < bitsVal y

theorem prefixes_from_pairwise :
    ∀ (t : Tree) (n : Nat), (t.prefixes_from []).Pairwise (emitBefore n) := by
  intro t
  induction t with
  | Sat => intro n; simp [Tree.prefixes_from]
  | Unsat => intro n; simp [Tree.prefixes_from]
  | Mixed l r ihl ihr =>
    intro n
    simp only [Tree.prefixes_from, List.nil_append]
    rw [prefixes_from_eq_map l, prefixes_from_eq_map r]
    rw [List.pairwise_append]
    refine ⟨?_, ?_, ?_⟩
    · rw [List.pairwise_map]
      refine (ihl (n - 1)).imp ?_
      intro p q hpq x y hx hy hpx hqy
      rw [show ([B0] ++ p : Bits) = B0 :: p from rfl, isPre_cons] at hpx
      rw [show ([B0] ++ q : Bits) = B0 :: q from rfl, isPre_cons] at hqy
      obtain ⟨x', rfl, hpx'⟩ := hpx
      obtain ⟨y', rfl, hqy'⟩ := hqy
      rw [bitsVal_cons_B0, bitsVal_cons_B0]
      exact hpq x' y' (by simp at hx; omega) (by simp at hy; omega) hpx' hqy'
    · rw [List.pairwise_map]
      refine (ihr (n - 1)).imp ?_
      intro p q hpq x y hx hy hpx hqy
      rw [show ([B1] ++ p : Bits) = B1 :: p from rfl, isPre_cons] at hpx
      rw [show ([B1] ++ q : Bits) = B1 :: q from rfl, isPre_cons] at hqy
      obtain ⟨x', rfl, hpx'⟩ := hpx
      obtain ⟨y', rfl, hqy'⟩ := hqy
      rw [bitsVal_cons_B1, bitsVal_cons_B1]
      have hxy : x'.length = y'.length := by simp at hx hy; omega
      have h2 : (2 : Nat) ^ x'.length = 2 ^ y'.length := by rw [hxy]
      have := hpq x' y' (by simp at hx; omega) (by simp at hy; omega) hpx' hqy'
      omega
    · intro p hp q hq
      simp only [List.mem_map] at hp hq
      obtain ⟨p', _, rfl⟩ := hp
      obtain ⟨q', _, rfl⟩ := hq
      intro x y hx hy hpx hqy
      rw [show ([B0] ++ p' : Bits) = B0 :: p' from rfl, isPre_cons] at hpx
      rw [show ([B1] ++ q' : Bits) = B1 :: q' from rfl, isPre_cons] at hqy
      obtain ⟨x', rfl, _⟩ := hpx
      obtain ⟨y', rfl, _⟩ := hqy
      rw [bitsVal_cons_B0, bitsVal_cons_B1]
      have hxy : x'.length = y'.length := by simp at hx hy; omega
      have := bitsVal_lt x'
      rw [hxy] at this
      omega

/-! ### The spine built by `add` on the empty tree -/

theorem add_unsat_ne_unsat : ∀ p : Bits, Tree.Unsat.add p ≠ Unsat := by
  intro p
  cases p with
  | nil => simp [Tree.add]
  | cons c cs => cases c <;> simp [Tree.add]

theorem add_unsat_optimize : ∀ p : Bits, (Tree.Unsat.add p).optimize = Tree.Unsat.add p := by
  intro p
  induction p with
  | nil => rfl
  | cons c cs ih =>
    cases c with
    | B0 =>
      have e : Tree.Unsat.add (B0 :: cs) = Mixed (Tree.Unsat.add cs) Unsat := rfl
      rw [e]
      simp only [Tree.optimize, ih]
      rcases h : Tree.Unsat.add cs with _ | _ | ⟨a, b⟩
      · rfl
      · exact absurd h (add_unsat_ne_unsat cs)
      · rfl
    | B1 =>
      have e : Tree.Unsat.add (B1 :: cs) = Mixed Unsat (Tree.Unsat.add cs) := rfl
      rw [e]
      simp only [Tree.optimize, ih]
      rcases h : Tree.Unsat.add cs with _ | _ | ⟨a, b⟩
      · rfl
      · exact absurd h (add_unsat_ne_unsat cs)
      · rfl

theorem prefixes_from_add_unsat :
    ∀ p q : Bits, (Tree.Unsat.add p).prefixes_from q = [q ++ p] := by
  intro p
  induction p with
  | nil => intro q; simp [Tree.add, Tree.prefixes_from]
  | cons c cs ih =>
    intro q
    cases c with
    | B0 =>
      show (Mixed (Tree.Unsat.add cs) Unsat).prefixes_from q = _
      simp [Tree.prefixes_from, ih, List.append_assoc]
    | B1 =>
      show (Mixed Unsat (Tree.Unsat.add cs)).prefixes_from q = _
      simp [Tree.prefixes_from, ih, List.append_assoc]

theorem prefixes_add_unsat (p : Bits) : (Tree.Unsat.add p).prefixes = [p] := by
  unfold Tree.prefixes
  rw [add_unsat_optimize, prefixes_from_add_unsat]
  simp

end Netcalc

/-! ### Range construction lemmas -/

namespace Netcalc

open Bit Tree

theorem bitsLt_iff {a b : Bits} : bitsLt a b = true ↔ pcmp a b = some Ordering.lt := by
  unfold bitsLt
  rcases ho : pcmp a b with _ | o
  · decide
  · cases o <;> decide

theorem bitsGt_iff {a b : Bits} : bitsGt a b = true ↔ pcmp a b = some Ordering.gt := by
  unfold bitsGt
  rcases ho : pcmp a b with _ | o
  · decide
  · cases o <;> decide

theorem bitsLe_true_of_lt {a b : Bits} (h : pcmp a b = some Ordering.lt) :
    bitsLe a b = true := by simp [bitsLe, h]

theorem bitsLe_true_of_eq {a b : Bits} (h : pcmp a b = some Ordering.eq) :
    bitsLe a b = true := by simp [bitsLe, h]

theorem bitsLe_false_of_gt {a b : Bits} (h : pcmp a b = some Ordering.gt) :
    bitsLe a b = false := by simp [bitsLe, h]

theorem bitsLe_refl (a : Bits) : bitsLe a a = true := bitsLe_true_of_eq (pcmp_refl a)

theorem bitsLe_cases {a b : Bits} (h : bitsLe a b = true) :
    pcmp a b = some Ordering.lt ∨ pcmp a b = some Ordering.eq := by
  unfold bitsLe at h
  rcases ho : pcmp a b with _ | o
  · rw [ho] at h; simp at h
  · cases o <;> simp_all

/-- At full length the partial order is total, so `from_range_at` always
takes the `Unsat` or the `Sat` early return: the recursion never descends
past depth W. -/
theorem full_len_resolved {n : Nat} {a b curr : Bits}
    (ha : a.length = n) (hb : b.length = n) (hc : curr.length = n) :
    (bitsLt curr a || bitsGt curr b) = true ∨ (bitsLe a curr && bitsLe curr b) = true := by
  have h1 := pcmp_isSome_of_len curr a (by rw [hc, ha])
  have h2 := pcmp_isSome_of_len curr b (by rw [hc, hb])
  match o1 : pcmp curr a with
  | some Ordering.lt =>
    left
    rw [Bool.or_eq_true]
    exact Or.inl (bitsLt_iff.mpr o1)
  | some Ordering.eq =>
    have hca : curr = a := (pcmp_eq_iff curr a).mp o1
    match o2 : pcmp curr b with
    | some Ordering.gt =>
      left
      rw [Bool.or_eq_true]
      exact Or.inr (bitsGt_iff.mpr o2)
    | some Ordering.lt =>
      right
      rw [Bool.and_eq_true]
      exact ⟨by rw [hca]; exact bitsLe_refl a, bitsLe_true_of_lt o2⟩
    | some Ordering.eq =>
      right
      rw [Bool.and_eq_true]
      exact ⟨by rw [hca]; exact bitsLe_refl a, bitsLe_true_of_eq o2⟩
    | none => simp [o2] at h2
  | some Ordering.gt =>
    have hac : pcmp a curr = some Ordering.lt := pcmp_gt_swap o1
    match o2 : pcmp curr b with
    | some Ordering.gt =>
      left
      rw [Bool.or_eq_true]
      exact Or.inr (bitsGt_iff.mpr o2)
    | some Ordering.lt =>
      right
      rw [Bool.and_eq_true]
      exact ⟨bitsLe_true_of_lt hac, bitsLe_true_of_lt o2⟩
    | some Ordering.eq =>
      right
      rw [Bool.and_eq_true]
      exact ⟨bitsLe_true_of_lt hac, bitsLe_true_of_eq o2⟩
    | none => simp [o2] at h2
  | none => simp [o1] at h1

theorem fromRangeAt_canonical :
    ∀ (k : Nat) (curr a b : Bits), canonical (Tree.fromRangeAt k curr a b) = true := by
  intro k
  induction k with
  | zero => intro curr a b; rfl
  | succ k ih =>
    intro curr a b
    simp only [Tree.fromRangeAt]
    by_cases h1 : (bitsLt curr a || bitsGt curr b) = true
    · rw [if_pos h1]; rfl
    · rw [if_neg h1]
      by_cases h2 : (bitsLe a curr && bitsLe curr b) = true
      · rw [if_pos h2]; rfl
      · rw [if_neg h2]; exact canonical_optimize _

theorem fromRangeAt_depth :
    ∀ (k n : Nat) (a b curr : Bits),
      a.length = n → b.length = n → curr.length + k = n + 1 → curr.length ≤ n →
      (Tree.fromRangeAt k curr a b).depth + curr.length ≤ n := by
  intro k
  induction k with
  | zero => intro n a b curr ha hb hk hc; omega
  | succ k ih =>
    intro n a b curr ha hb hk hc
    simp only [Tree.fromRangeAt]
    by_cases h1 : (bitsLt curr a || bitsGt curr b) = true
    · rw [if_pos h1]; simp [Tree.depth]; omega
    · rw [if_neg h1]
      by_cases h2 : (bitsLe a curr && bitsLe curr b) = true
      · rw [if_pos h2]; simp [Tree.depth]; omega
      · rw [if_neg h2]
        have hcur_lt : curr.length < n := by
          rcases Nat.lt_or_ge curr.length n with h | h
          · exact h
          · have hcn : curr.length = n := by omega
            rcases full_len_resolved ha hb hcn with hh | hh
            · exact absurd hh h1
            · exact absurd hh h2
        have hl0 : (curr ++ [B0]).length + k = n + 1 := by
          simp [List.length_append]; omega
        have hl1 : (curr ++ [B1]).length + k = n + 1 := by
          simp [List.length_append]; omega
        have hc0 : (curr ++ [B0]).length ≤ n := by simp [List.length_append]; omega
        have hc1 : (curr ++ [B1]).length ≤ n := by simp [List.length_append]; omega
        have d0 := ih n a b (curr ++ [B0]) ha hb hl0 hc0
        have d1 := ih n a b (curr ++ [B1]) ha hb hl1 hc1
        have hopt := depth_optimize
          (Tree.mixed (Tree.fromRangeAt k (curr ++ [B0]) a b)
                      (Tree.fromRangeAt k (curr ++ [B1]) a b))
        simp only [Tree.mixed, Tree.depth] at hopt
        simp only [List.length_append, List.length_cons, List.length_nil] at d0 d1
        simp only [Tree.mixed]
        omega

theorem fromRangeAt_mem :
    ∀ (k n : Nat) (a b curr rest : Bits),
      a.length = n → b.length = n → curr.length + k = n + 1 →
      rest.length + curr.length = n →
      (Tree.fromRangeAt k curr a b).mem rest
        = (bitsLe a (curr ++ rest) && bitsLe (curr ++ rest) b) := by
  intro k
  induction k with
  | zero => intro n a b curr rest ha hb hk hr; omega
  | succ k ih =>
    intro n a b curr rest ha hb hk hr
    simp only [Tree.fromRangeAt]
    by_cases h1 : (bitsLt curr a || bitsGt curr b) = true
    · rw [if_pos h1]
      simp only [Tree.mem]
      symm
      rw [Bool.and_eq_false_iff]
      rw [Bool.or_eq_true] at h1
      rcases h1 with hlt | hgt
      · left
        have h := pcmp_append_lt curr a (bitsLt_iff.mp hlt) rest []
        rw [List.append_nil] at h
        exact bitsLe_false_of_gt (pcmp_lt_swap h)
      · right
        have h := pcmp_append_lt b curr (pcmp_gt_swap (bitsGt_iff.mp hgt)) [] rest
        rw [List.append_nil] at h
        exact bitsLe_false_of_gt (pcmp_lt_swap h)
    · rw [if_neg h1]
      by_cases h2 : (bitsLe a curr && bitsLe curr b) = true
      · rw [if_pos h2]
        simp only [Tree.mem]
        symm
        rw [Bool.and_eq_true]
        rw [Bool.and_eq_true] at h2
        obtain ⟨hac, hcb⟩ := h2
        constructor
        · rcases bitsLe_cases hac with hlt | heq
          · have h := pcmp_append_lt a curr hlt [] rest
            rw [List.append_nil] at h
            exact bitsLe_true_of_lt h
          · have hca : a = curr := (pcmp_eq_iff a curr).mp heq
            have hrest : rest = [] := by
              subst hca
              have : rest.length = 0 := by omega
              exact List.eq_nil_of_length_eq_zero this
            subst hrest
            rw [List.append_nil, ← hca]
            exact bitsLe_refl a
        · rcases bitsLe_cases hcb with hlt | heq
          · have h := pcmp_append_lt curr b hlt rest []
            rw [List.append_nil] at h
            exact bitsLe_true_of_lt h
          · have hcb' : curr = b := (pcmp_eq_iff curr b).mp heq
            have hrest : rest = [] := by
              subst hcb'
              have : rest.length = 0 := by omega
              exact List.eq_nil_of_length_eq_zero this
            subst hrest
            rw [List.append_nil, hcb']
            exact bitsLe_refl b
      · rw [if_neg h2]
        have hcur_le : curr.length ≤ n := by omega
        have hcur_lt : curr.length < n := by
          rcases Nat.lt_or_ge curr.length n with h | h
          · exact h
          · have hcn : curr.length = n := by omega
            rcases full_len_resolved ha hb hcn with hh | hh
            · exact absurd hh h1
            · exact absurd hh h2
        obtain ⟨hd, rest', rfl⟩ : ∃ hd rest', rest = hd :: rest' := by
          cases rest with
          | nil => exfalso; simp at hr; omega
          | cons hd r' => exact ⟨hd, r', rfl⟩
        have hl0 : (curr ++ [B0]).length + k = n + 1 := by
          simp [List.length_append]; omega
        have hl1 : (curr ++ [B1]).length + k = n + 1 := by
          simp [List.length_append]; omega
        have hc0 : (curr ++ [B0]).length ≤ n := by simp [List.length_append]; omega
        have hc1 : (curr ++ [B1]).length ≤ n := by simp [List.length_append]; omega
        have d0 := fromRangeAt_depth k n a b (curr ++ [B0]) ha hb hl0 hc0
        have d1 := fromRangeAt_depth k n a b (curr ++ [B1]) ha hb hl1 hc1
        have hdepth :
            (Tree.mixed (Tree.fromRangeAt k (curr ++ [B0]) a b)
                        (Tree.fromRangeAt k (curr ++ [B1]) a b)).depth
              ≤ (hd :: rest').length := by
          simp only [Tree.mixed, Tree.depth, List.length_cons]
          simp only [List.length_append, List.length_cons, List.length_nil] at d0 d1
          simp only [List.length_cons] at hr
          omega
        rw [mem_optimize _ _ hdepth]
        cases hd with
        | B0 =>
          have hr0 : rest'.length + (curr ++ [B0]).length = n := by
            simp [List.length_append]
            simp only [List.length_cons] at hr
            omega
          have := ih n a b (curr ++ [B0]) rest' ha hb hl0 hr0
          simp only [Tree.mixed, Tree.mem]
          rw [this, List.append_assoc]
          rfl
        | B1 =>
          have hr1 : rest'.length + (curr ++ [B1]).length = n := by
            simp [List.length_append]
            simp only [List.length_cons] at hr
            omega
          have := ih n a b (curr ++ [B1]) rest' ha hb hl1 hr1
          simp only [Tree.mixed, Tree.mem]
          rw [this, List.append_assoc]
          rfl

end Netcalc

/-! ### Canonicity of the individual operations -/

namespace Netcalc

open Bit Tree

theorem flip_canonical : ∀ t : Tree, canonical t = true → canonical t.flip = true := by
  intro t
  induction t with
  | Sat => intro _; rfl
  | Unsat => intro _; rfl
  | Mixed l r ihl ihr =>
    intro hc
    simp only [canonical, Bool.and_eq_true, Bool.not_eq_true'] at hc
    obtain ⟨⟨hbp, hcl⟩, hcr⟩ := hc
    have hfl := ihl hcl
    have hfr := ihr hcr
    show canonical (Mixed l.flip r.flip) = true
    simp only [canonical, Bool.and_eq_true, Bool.not_eq_true']
    refine ⟨⟨?_, hfl⟩, hfr⟩
    cases l <;> cases r <;> simp_all [Tree.flip, badPair]

theorem union_canonical (u v : Tree) (hu : canonical u = true) (hv : canonical v = true) :
    canonical (u.union v) = true := by
  cases u <;> cases v <;> simp_all [Tree.union, canonical, badPair, canonical_optimize]

theorem difference_canonical (u v : Tree) (hu : canonical u = true) (hv : canonical v = true) :
    canonical (u.difference v) = true := by
  cases u with
  | Sat =>
    cases v with
    | Sat => simp [Tree.difference, canonical]
    | Unsat => simpa [Tree.difference] using hu
    | Mixed l r => simpa [Tree.difference] using flip_canonical _ hv
  | Unsat =>
    cases v with
    | Sat => simp [Tree.difference, canonical]
    | Unsat => simpa [Tree.difference] using hu
    | Mixed l r => simp [Tree.difference, canonical]
  | Mixed a0 a1 =>
    cases v with
    | Sat => simp [Tree.difference, canonical]
    | Unsat => simpa [Tree.difference] using hu
    | Mixed b0 b1 =>
      simp only [Tree.difference]
      exact canonical_optimize _

theorem from_range_error_iff (s e : Bits) :
    Tree.from_range s e = Except.error Err.rangeInverted ↔ bitsLe s e = false := by
  unfold Tree.from_range
  by_cases h : bitsLe s e = true
  · rw [if_pos h]
    simp [h]
  · rw [if_neg h]
    simp only [Bool.not_eq_true] at h
    simp [h]

theorem bitsLe_false_iff_gt {s e : Bits} (h : s.length = e.length) :
    bitsLe s e = false ↔ bitsGt s e = true := by
  have hs := pcmp_isSome_of_len s e h
  match ho : pcmp s e with
  | some Ordering.lt =>
    have := bitsLe_true_of_lt ho
    simp [this, bitsGt_iff, ho]
  | some Ordering.eq =>
    have := bitsLe_true_of_eq ho
    simp [this, bitsGt_iff, ho]
  | some Ordering.gt =>
    have := bitsLe_false_of_gt ho
    simp [this, bitsGt_iff, ho]
  | none => simp [ho] at hs

end Netcalc

/-! ### Claim theorems for the trie algebra -/

namespace Netcalc

open Bit Tree

/-- C1: for equal-length BitStrings `a ≤ b` and any string `x` of the same
width, `x` lies in the prefix set of some member of
`prefixes(from_range(a, b))` exactly when `a ≤ x ≤ b` holds for the MSB-first
unsigned integer readings of `a`, `x`, `b`. -/
theorem c1_range_equiv (n : Nat) (a b x : Bits) (t : Tree)
    (ha : a.length = n) (hb : b.length = n) (hx : x.length = n)
    (hle : bitsLe a b = true) (ht : Tree.from_range a b = Except.ok t) :
    (∃ p ∈ t.prefixes, isPre p x = true)
      ↔ (bitsVal a ≤ bitsVal x ∧ bitsVal x ≤ bitsVal b) := by
  subst ha
  unfold Tree.from_range at ht
  rw [if_pos hle] at ht
  injection ht with ht
  subst ht
  have hd : (Tree.fromRangeAt (a.length + 1) [] a b).depth ≤ a.length := by
    have := fromRangeAt_depth (a.length + 1) a.length a b [] rfl hb (by simp) (by simp)
    simpa using this
  have hcover := mem_iff_cover (Tree.fromRangeAt (a.length + 1) [] a b).optimize x
    (le_trans (depth_optimize _) (by omega))
  have hmemopt := mem_optimize (Tree.fromRangeAt (a.length + 1) [] a b) x (by omega)
  have hmem : (Tree.fromRangeAt (a.length + 1) [] a b).mem x
      = (bitsLe a x && bitsLe x b) := by
    have := fromRangeAt_mem (a.length + 1) a.length a b [] x rfl hb (by simp) (by simpa using hx)
    simpa using this
  unfold Tree.prefixes
  rw [hcover, hmemopt, hmem, Bool.and_eq_true]
  rw [bitsLe_iff_val a x (by rw [hx]), bitsLe_iff_val x b (by rw [hx, hb])]

theorem c1_range_equiv_w :
    (∃ p ∈ (Tree.fromRangeAt 3 [] [B0, B1] [B1, B0]).prefixes, isPre p [B1, B0] = true)
      ↔ (bitsVal [B0, B1] ≤ bitsVal [B1, B0] ∧ bitsVal [B1, B0] ≤ bitsVal [B1, B0]) :=
  c1_range_equiv 2 [B0, B1] [B1, B0] [B1, B0] (Tree.fromRangeAt 3 [] [B0, B1] [B1, B0])
    (by decide) (by decide) (by decide) (by decide) (by decide)

/-- C2: for a trie of depth at most `n` (the data-model depth bound, W for
the program), `prefixes` yields strings of length at most `n`, with pairwise
disjoint denoted prefix-sets, whose union is exactly the set represented by
the trie; the enumeration is depth-first with the 0-side first, so covered
addresses appear in strictly increasing numeric order; a root `Sat` yields
exactly the empty BitString and a root `Unsat` yields nothing. -/
theorem c2_prefixes_spec (n : Nat) (t : Tree) (hd : t.depth ≤ n) :
    (∀ p ∈ t.prefixes, p.length ≤ n)
    ∧ t.prefixes.Pairwise
        (fun p q => ∀ x : Bits, x.length = n → ¬(isPre p x = true ∧ isPre q x = true))
    ∧ (∀ x : Bits, x.length = n → ((∃ p ∈ t.prefixes, isPre p x = true) ↔ t.mem x = true))
    ∧ t.prefixes.Pairwise (emitBefore n)
    ∧ Tree.Sat.prefixes = [([] : Bits)] ∧ Tree.Unsat.prefixes = [] := by
  refine ⟨?_, ?_, ?_, ?_, rfl, rfl⟩
  · intro p hp
    unfold Tree.prefixes at hp
    exact le_trans (prefixes_from_length t.optimize p hp) (le_trans (depth_optimize t) hd)
  · have hpw := prefixes_from_pairwise t.optimize n
    unfold Tree.prefixes
    refine hpw.imp ?_
    intro p q hpq
    rintro x hx ⟨hpx, hqx⟩
    exact absurd (hpq x x hx hx hpx hqx) (lt_irrefl _)
  · intro x hx
    unfold Tree.prefixes
    rw [mem_iff_cover t.optimize x (le_trans (depth_optimize t) (by omega))]
    rw [mem_optimize t x (by omega)]
  · exact prefixes_from_pairwise t.optimize n

theorem c2_prefixes_spec_w :
    (Tree.Mixed Tree.Sat Tree.Unsat).depth ≤ 1 ∧
      ((∀ p ∈ (Tree.Mixed Tree.Sat Tree.Unsat).prefixes, p.length ≤ 1)
       ∧ (Tree.Mixed Tree.Sat Tree.Unsat).prefixes.Pairwise
           (fun p q => ∀ x : Bits, x.length = 1 → ¬(isPre p x = true ∧ isPre q x = true))
       ∧ (∀ x : Bits, x.length = 1 →
            ((∃ p ∈ (Tree.Mixed Tree.Sat Tree.Unsat).prefixes, isPre p x = true)
              ↔ (Tree.Mixed Tree.Sat Tree.Unsat).mem x = true))
       ∧ (Tree.Mixed Tree.Sat Tree.Unsat).prefixes.Pairwise (emitBefore 1)
       ∧ Tree.Sat.prefixes = [([] : Bits)] ∧ Tree.Unsat.prefixes = []) :=
  ⟨by decide, c2_prefixes_spec 1 (Tree.Mixed Tree.Sat Tree.Unsat) (by decide)⟩

/-- C3 counterexample: `from_range([0], [])` fails with `RangeInverted`
although `[0] > []` is false — the bounds are merely incomparable under the
partial order, so "fails exactly when start > end" is refuted. -/
theorem c3_counterexample :
    Tree.from_range [B0] [] = Except.error Err.rangeInverted ∧ bitsGt [B0] [] = false := by
  decide

/-- C3 amended: `from_range(start, end)` fails with `RangeInverted` exactly
when `start ≤ end` does not hold under the partial order (for equal-length
inputs this is exactly `start > end`), and succeeds whenever `start ≤ end`. -/
theorem c3_from_range_err (s e : Bits) :
    (Tree.from_range s e = Except.error Err.rangeInverted ↔ bitsLe s e = false)
    ∧ (s.length = e.length →
        (Tree.from_range s e = Except.error Err.rangeInverted ↔ bitsGt s e = true))
    ∧ (bitsLe s e = true → ∃ t, Tree.from_range s e = Except.ok t) := by
  refine ⟨from_range_error_iff s e, ?_, ?_⟩
  · intro hlen
    rw [from_range_error_iff s e]
    exact bitsLe_false_iff_gt hlen
  · intro hle
    exact ⟨_, by unfold Tree.from_range; rw [if_pos hle]⟩

theorem c3_from_range_err_w :
    ([B0] : Bits).length = ([B1] : Bits).length
    ∧ (Tree.from_range [B0] [B1] = Except.error Err.rangeInverted ↔ bitsGt [B0] [B1] = true)
    ∧ (∃ t, Tree.from_range [B0] [B1] = Except.ok t) :=
  ⟨by decide, (c3_from_range_err [B0] [B1]).2.1 (by decide),
    (c3_from_range_err [B0] [B1]).2.2 (by decide)⟩

/-- C4 counterexample: three operation sequences from the empty trie whose
result contains a `Branch(Full, Full)` subterm.  `add [0]; add [1]` yields
`Mixed(Sat, Sat)`; so does a pair of unions through the `mod.rs`
`Tree::union` even though both operand trees are canonical; and the
`mod.rs` `from_range_at` returns `Mixed(Sat, Sat)` for the range
`[0]..[1]`.  So not every set operation returns a normalized result. -/
theorem c4_counterexample :
    (canonical (execOps [Op.addP [B0], Op.addP [B1]]) = false
      ∧ execOps [Op.addP [B0], Op.addP [B1]] = Tree.Mixed Tree.Sat Tree.Sat)
    ∧ (canonical (execOps [Op.unionM (Tree.Mixed Tree.Sat Tree.Unsat),
          Op.unionM (Tree.Mixed Tree.Unsat Tree.Sat)]) = false
      ∧ execOps [Op.unionM (Tree.Mixed Tree.Sat Tree.Unsat),
          Op.unionM (Tree.Mixed Tree.Unsat Tree.Sat)] = Tree.Mixed Tree.Sat Tree.Sat
      ∧ canonical (Tree.Mixed Tree.Sat Tree.Unsat) = true
      ∧ canonical (Tree.Mixed Tree.Unsat Tree.Sat) = true)
    ∧ (Tree.from_rangeM [B0] [B1] = Tree.Mixed Tree.Sat Tree.Sat
      ∧ canonical (Tree.from_rangeM [B0] [B1]) = false) := by
  refine ⟨⟨by decide, by decide⟩, ⟨?_, ?_, by decide, by decide⟩, by decide, by decide⟩
  · simp [execOps, applyOp, Tree.unionM, canonical, badPair]
  · simp [execOps, applyOp, Tree.unionM]

/-- C4 amended: not every set operation returns a normalized result —
`add` (and hence `delete`), the `mod.rs` `union`, and the `mod.rs`
`from_range_at` can all leave `Branch(Full,Full)` or `Branch(Empty,Empty)`
nodes — but for any sequence of operations starting from the empty trie,
the result re-normalized by `optimize` (as `prefixes` does before
enumerating) contains no such subterm. -/
theorem c4_amended (ops : List Op) : canonical ((execOps ops).optimize) = true :=
  canonical_optimize (execOps ops)

/-- C9: `prefixes(t)` equals `prefixes(optimize(t))` for every tree —
`prefixes` normalizes a copy of its argument before descending — and the
emitted cover never contains two BitStrings differing only in their last
bit, even when the tree itself is non-canonical.  (The argument tree is
unchanged by construction: in the embedding all operations are pure, as the
Rust `prefixes` clones `self`.) -/
theorem c9_prefixes_optimize (t : Tree) :
    t.prefixes = t.optimize.prefixes
    ∧ ∀ s : Bits, ¬((s ++ [B0]) ∈ t.prefixes ∧ (s ++ [B1]) ∈ t.prefixes) := by
  constructor
  · show Tree.prefixes_from t.optimize [] = Tree.prefixes_from t.optimize.optimize []
    rw [optimize_idem]
  · intro s
    show ¬((s ++ [B0]) ∈ Tree.prefixes_from t.optimize [] ∧ _)
    exact no_sibling_of_canonical t.optimize (canonical_optimize t) s

theorem c9_prefixes_optimize_w :
    (Tree.Mixed Tree.Sat Tree.Sat).prefixes = (Tree.Mixed Tree.Sat Tree.Sat).optimize.prefixes
    ∧ ∀ s : Bits, ¬((s ++ [B0]) ∈ (Tree.Mixed Tree.Sat Tree.Sat).prefixes
        ∧ (s ++ [B1]) ∈ (Tree.Mixed Tree.Sat Tree.Sat).prefixes) :=
  c9_prefixes_optimize (Tree.Mixed Tree.Sat Tree.Sat)

/-- C10: `add(t, p)` never reaches the `split().unwrap()` panic for any tree
and any prefix, of any length (including lengths above W): the recursion
only splits non-empty prefixes.  Termination holds as well: the embedded
`Tree.add` is a total structural recursion on the prefix. -/
theorem c10_add_no_panic : ∀ (t : Tree) (p : Bits), addPanics t p = false := by
  intro t p
  induction p generalizing t with
  | nil => cases t <;> rfl
  | cons c cs ih => cases t <;> cases c <;> simp [addPanics, ih]

end Netcalc

/-! ### Round-trip lemmas and the shell claims -/

namespace Netcalc

open Bit Tree

theorem parse_v4_addr_length {sa : List Char} {a : Bits}
    (h : parse_v4_addr sa = Except.ok a) : a.length = 32 := by
  unfold parse_v4_addr at h
  rcases hs : parseSegs (splitOnChar '.' sa) with e | bits
  · rw [hs] at h
    simp only [bind, Except.bind] at h
    simp at h
  · rw [hs] at h
    simp only [bind, Except.bind] at h
    by_cases hb : bits.length = 32
    · rw [if_pos hb] at h
      injection h with h
      subst h
      exact hb
    · rw [if_neg hb] at h
      simp at h

theorem toV4Addr_ok {b : Bits} (h : b.length = 32) :
    toV4Addr b = Except.ok
      (natChars (bitsVal b / 2 ^ 24 % 256) ++ '.' :: natChars (bitsVal b / 2 ^ 16 % 256)
        ++ '.' :: natChars (bitsVal b / 2 ^ 8 % 256) ++ '.' :: natChars (bitsVal b % 256)) := by
  unfold toV4Addr toU32
  rw [if_pos h, if_pos h]
  rfl

theorem zeroBeyond_length {a : Bits} {len : Nat} (ha : a.length = 32) (hl : len ≤ 32) :
    (zeroBeyond a len).length = 32 := by
  unfold zeroBeyond
  simp [List.length_take, ha]
  omega

theorem rightPad_take_eq_zeroBeyond {a : Bits} {len : Nat} (ha : a.length = 32) (hl : len ≤ 32) :
    rightPad (a.take len) 32 B0 = zeroBeyond a len := by
  unfold rightPad zeroBeyond
  have hlen : (a.take len).length = len := by simp [List.length_take]; omega
  rw [if_pos (by rw [hlen]; exact hl), hlen, ha]

theorem toV4Cidr_take {a : Bits} {len : Nat} (ha : a.length = 32) (hl : len ≤ 32) :
    toV4Cidr (a.take len) = normCidr a len := by
  unfold toV4Cidr normCidr
  have hlen : (a.take len).length = len := by simp [List.length_take]; omega
  rw [rightPad_take_eq_zeroBeyond ha hl, hlen, if_pos hl]

theorem normCidr_ok {a : Bits} {len : Nat} (ha : a.length = 32) (hl : len ≤ 32) :
    ∃ out, normCidr a len = Except.ok out := by
  unfold normCidr
  rw [toV4Addr_ok (zeroBeyond_length ha hl)]
  exact ⟨_, rfl⟩

/-- C8: for every string the CIDR parser accepts, adding the parsed prefix
to the empty trie, enumerating and formatting yields exactly one CIDR
string, and it is the CIDR denoting the input's address bits with every bit
beyond the stated prefix length zeroed (`normCidr`), with the input's
prefix length. -/
theorem c8_roundtrip (s : List Char) (p : Bits) (hp : parse_v4_cidr s = Except.ok p) :
    ∃ (sa sl : List Char) (a : Bits) (len : Nat),
      splitOnChar '/' s = [sa, sl]
      ∧ parse_v4_addr sa = Except.ok a
      ∧ parseU8 sl = Except.ok len
      ∧ len ≤ 32
      ∧ p = a.take len
      ∧ (Tree.Unsat.add p).prefixes.map toV4Cidr = [normCidr a len]
      ∧ (∃ out, normCidr a len = Except.ok out) := by
  unfold parse_v4_cidr at hp
  rcases hsp : splitOnChar '/' s with _ | ⟨sa, _ | ⟨sl, _ | ⟨x, rest3⟩⟩⟩
  · rw [hsp] at hp
    replace hp : Except.error Err.malformed = Except.ok p := hp
    simp at hp
  · rw [hsp] at hp
    replace hp : Except.error Err.malformed = Except.ok p := hp
    simp at hp
  · rw [hsp] at hp
    replace hp : (do
        let addr ← parse_v4_addr sa
        let len ← parseU8 sl
        if len ≤ 32 then Except.ok (addr.take len) else Except.error Err.malformed)
          = Except.ok p := hp
    rcases haddr : parse_v4_addr sa with e | a
    · rw [haddr] at hp
      simp only [bind, Except.bind] at hp
      simp at hp
    · rw [haddr] at hp
      simp only [bind, Except.bind] at hp
      rcases hlen : parseU8 sl with e | len
      · rw [hlen] at hp
        simp at hp
      · rw [hlen] at hp
        replace hp : (if len ≤ 32 then Except.ok (a.take len)
            else Except.error Err.malformed) = Except.ok p := hp
        by_cases hle : len ≤ 32
        · rw [if_pos hle] at hp
          injection hp with hp
          subst hp
          have ha32 := parse_v4_addr_length haddr
          refine ⟨sa, sl, a, len, rfl, haddr, hlen, hle, rfl, ?_, normCidr_ok ha32 hle⟩
          rw [prefixes_add_unsat]
          simp only [List.map]
          rw [toV4Cidr_take ha32 hle]
        · rw [if_neg hle] at hp
          simp at hp
  · rw [hsp] at hp
    replace hp : Except.error Err.malformed = Except.ok p := hp
    simp at hp

theorem c8_roundtrip_w :
    ∃ (sa sl : List Char) (a : Bits) (len : Nat),
      splitOnChar '/' ("10.0.0.1/8".toList) = [sa, sl]
      ∧ parse_v4_addr sa = Except.ok a
      ∧ parseU8 sl = Except.ok len
      ∧ len ≤ 32
      ∧ [B0, B0, B0, B0, B1, B0, B1, B0] = a.take len
      ∧ (Tree.Unsat.add [B0, B0, B0, B0, B1, B0, B1, B0]).prefixes.map toV4Cidr
          = [normCidr a len]
      ∧ (∃ out, normCidr a len = Except.ok out) :=
  c8_roundtrip ("10.0.0.1/8".toList) [B0, B0, B0, B0, B1, B0, B1, B0] (by decide)

/-- C5: the claim that blank and comment lines are no-ops is right about
comments but wrong about blank lines: a line that trims to the empty string
makes the Rust parser panic at `&line[..1]` (byte index out of bounds); the
`"" => ()` arm meant to catch it is unreachable.  Comment lines are skipped
as claimed. -/
theorem c5_blank_line_panics :
    parseLines ("\n".toList) = Except.error Err.panicked
    ∧ parseLines ("  ".toList) = Except.error Err.panicked
    ∧ parseLines ("# comment".toList) = Except.ok [] := by
  decide

/-- C6: the operand parser never attempts the range interpretation
(`BitsOrTree::parse` is `todo!()` and unused): a range operand after `+`
fails with a parse error instead of building a trie via `from_range`, and
`parse_v4` tries CIDR before address rather than address first. -/
theorem c6_range_operand_rejected :
    parse_v4 ("10.0.0.1-10.0.0.6".toList) = Except.error Err.malformed
    ∧ parseLines ("+10.0.0.1-10.0.0.6".toList) = Except.error Err.malformed := by
  decide

/-- C7: `netcalc::convert` takes only a separator and a script — no version
argument — and always parses and formats IPv4: an IPv6 literal fails even
though the claim says version "6" selects IPv6, while IPv4 scripts work. -/
theorem c7_no_version_no_ipv6 :
    convert (",".toList) ("+::1".toList) = Except.error Err.malformed
    ∧ convert ("\n".toList) ("+10.0.0.1".toList) = Except.ok ("10.0.0.1/32".toList) := by
  decide

end Netcalc
